import Mathlib

/-!
# Verification of the isometric city-builder portfolio scene

This development embeds the core logic of the repository in Lean 4 and proves
the specification's testable properties about it:

* the winding-path generator (`generateWindingPath`, `connectPoints` loop from
  `src/App.tsx`), with the per-step `Math.random()` tie-break modelled as an
  explicit list of booleans consumed one per loop iteration (every run of the
  JavaScript corresponds to some coin list, and conversely);
* the checkpoint-index computation (`getCheckpointIndices` from
  `src/components/IsoMap.tsx`), with the float expression
  `Math.floor(totalPathLength * (i / 6))` modelled as natural-number floor
  division `totalPathLength * i / 6` (the two agree at the path length 47 that
  the generator produces, checked against IEEE double evaluation);
* the cyclist's per-frame update (`useFrame` body of `Cyclist`), with the
  floating-point `progress` scalar modelled over `ℚ` and each frame given by a
  `(isPaused, delta)` pair;
* the grid editor (`createInitialState` / `handleTileClick` from
  `src/App.tsx`) and the restart handler.
-/

/-! ## Path generation (src/App.tsx) -/

/-- A grid coordinate, mirroring `interface Point { x, y }`. -/
structure Point where
  x : Int
  y : Int
deriving DecidableEq, Repr

/-- Manhattan distance between two points; the loop in `connectPoints` takes
exactly this many iterations. -/
def manhattan (p q : Point) : Nat :=
  (q.x - p.x).natAbs + (q.y - p.y).natAbs

/-- One iteration of the `while` loop body of `connectPoints`: pick the axis
with the larger absolute delta (coin toss on ties, mirroring
`Math.random() > 0.5`), then move one unit toward `p2`, with the fallback
chain of the source (`if (moveX && dx !== 0) ... else if (dy !== 0) ... else
if (dx !== 0) ...`). `Int.sign` is `Math.sign` on integers. -/
def moveXChoice (dx dy : Int) (coin : Bool) : Bool :=
  if dy.natAbs < dx.natAbs then true
  else if dx.natAbs < dy.natAbs then false
  else coin

def connectStep (curr p2 : Point) (coin : Bool) : Point :=
  if moveXChoice (p2.x - curr.x) (p2.y - curr.y) coin = true ∧ p2.x - curr.x ≠ 0 then
    { curr with x := curr.x + (p2.x - curr.x).sign }
  else if p2.y - curr.y ≠ 0 then { curr with y := curr.y + (p2.y - curr.y).sign }
  else if p2.x - curr.x ≠ 0 then { curr with x := curr.x + (p2.x - curr.x).sign }
  else curr

/-- Moving one signed unit toward a nonzero delta shrinks its absolute value
by exactly one. -/
lemma natAbs_sub_sign (d : Int) (h : d ≠ 0) : (d - d.sign).natAbs + 1 = d.natAbs := by
  rcases lt_trichotomy d 0 with h1 | h1 | h1
  · rw [Int.sign_eq_neg_one_of_neg h1]; omega
  · exact absurd h1 h
  · rw [Int.sign_eq_one_of_pos h1]; omega

/-- Each loop iteration moves one step closer to the target waypoint. -/
lemma connectStep_manhattan (curr p2 : Point) (coin : Bool) (h : curr ≠ p2) :
    manhattan (connectStep curr p2 coin) p2 + 1 = manhattan curr p2 := by
  have hne : p2.x - curr.x ≠ 0 ∨ p2.y - curr.y ≠ 0 := by
    by_contra hc
    push_neg at hc
    exact h (by cases curr; cases p2; simp_all; omega)
  unfold connectStep manhattan
  split_ifs with h1 h2 h3
  · have hdx : p2.x - curr.x ≠ 0 := h1.2
    have e : p2.x - (curr.x + (p2.x - curr.x).sign)
        = (p2.x - curr.x) - (p2.x - curr.x).sign := by ring
    simp only [e]
    have := natAbs_sub_sign (p2.x - curr.x) hdx
    omega
  · have e : p2.y - (curr.y + (p2.y - curr.y).sign)
        = (p2.y - curr.y) - (p2.y - curr.y).sign := by ring
    simp only [e]
    have := natAbs_sub_sign (p2.y - curr.y) h2
    omega
  · have e : p2.x - (curr.x + (p2.x - curr.x).sign)
        = (p2.x - curr.x) - (p2.x - curr.x).sign := by ring
    simp only [e]
    have := natAbs_sub_sign (p2.x - curr.x) h3
    omega
  · rcases hne with hdx | hdy
    · exact absurd hdx h3
    · exact absurd hdy h2

/-- Two cells are grid-adjacent: equal on one axis and one unit apart on the
other (the spec's "differ by exactly one unit in exactly one axis"). -/
def adjacent (p q : Point) : Prop :=
  (p.x = q.x ∧ (q.y - p.y).natAbs = 1) ∨ (p.y = q.y ∧ (q.x - p.x).natAbs = 1)

instance (p q : Point) : Decidable (adjacent p q) := by
  unfold adjacent; infer_instance

/-- Each loop iteration produces a cell adjacent to the previous one. -/
lemma connectStep_adjacent (curr p2 : Point) (coin : Bool) (h : curr ≠ p2) :
    adjacent curr (connectStep curr p2 coin) := by
  have hne : p2.x - curr.x ≠ 0 ∨ p2.y - curr.y ≠ 0 := by
    by_contra hc
    push_neg at hc
    exact h (by cases curr; cases p2; simp_all; omega)
  unfold connectStep adjacent
  split_ifs with h1 h2 h3
  · right
    refine ⟨rfl, ?_⟩
    have hdx : p2.x - curr.x ≠ 0 := h1.2
    have e : curr.x + (p2.x - curr.x).sign - curr.x = (p2.x - curr.x).sign := by ring
    rw [e]
    rcases lt_trichotomy (p2.x - curr.x) 0 with h1' | h1' | h1'
    · rw [Int.sign_eq_neg_one_of_neg h1']; rfl
    · exact absurd h1' hdx
    · rw [Int.sign_eq_one_of_pos h1']; rfl
  · left
    refine ⟨rfl, ?_⟩
    have e : curr.y + (p2.y - curr.y).sign - curr.y = (p2.y - curr.y).sign := by ring
    rw [e]
    rcases lt_trichotomy (p2.y - curr.y) 0 with h1' | h1' | h1'
    · rw [Int.sign_eq_neg_one_of_neg h1']; rfl
    · exact absurd h1' h2
    · rw [Int.sign_eq_one_of_pos h1']; rfl
  · right
    refine ⟨rfl, ?_⟩
    have e : curr.x + (p2.x - curr.x).sign - curr.x = (p2.x - curr.x).sign := by ring
    rw [e]
    rcases lt_trichotomy (p2.x - curr.x) 0 with h1' | h1' | h1'
    · rw [Int.sign_eq_neg_one_of_neg h1']; rfl
    · exact absurd h1' h3
    · rw [Int.sign_eq_one_of_pos h1']; rfl
  · rcases hne with hdx | hdy
    · exact absurd hdx h3
    · exact absurd hdy h2

/-- The `while (curr.x !== p2.x || curr.y !== p2.y)` loop of `connectPoints`,
written with explicit fuel so that it stays structurally recursive.  It
returns the pushed segment (excluding `p1`, as in the source) together with
the unconsumed coins, or `none` if the fuel runs out before reaching `p2`.
Termination with fuel `manhattan p1 p2` is proved below. -/
def connectGo : Nat → Point → Point → List Bool → Option (List Point × List Bool)
  | 0, curr, p2, coins => if curr = p2 then some ([], coins) else none
  | fuel + 1, curr, p2, coins =>
    if curr = p2 then some ([], coins)
    else
      match connectGo fuel (connectStep curr p2 coins.headI) p2 coins.tail with
      | some (seg, rest) => some (connectStep curr p2 coins.headI :: seg, rest)
      | none => none

/-- The loop reaches the target within `manhattan` many iterations, for every
outcome of the coin tosses. -/
lemma connectGo_isSome (fuel : Nat) :
    ∀ (curr p2 : Point) (coins : List Bool), manhattan curr p2 ≤ fuel →
      (connectGo fuel curr p2 coins).isSome = true := by
  induction fuel with
  | zero =>
    intro curr p2 coins h
    have : curr = p2 := by
      cases curr; cases p2
      simp [manhattan] at h
      simp; omega
    simp [connectGo, this]
  | succ n ih =>
    intro curr p2 coins h
    by_cases hc : curr = p2
    · simp [connectGo, hc]
    · have hd := connectStep_manhattan curr p2 coins.headI hc
      have := ih (connectStep curr p2 coins.headI) p2 coins.tail (by omega)
      simp only [connectGo, if_neg hc]
      cases he : connectGo n (connectStep curr p2 coins.headI) p2 coins.tail with
      | none => rw [he] at this; simp at this
      | some v => cases v; simp

/-- The final element of `p :: l`, as a total function (used to chain the
per-waypoint segments together). -/
def lastOf (p : Point) : List Point → Point
  | [] => p
  | q :: l => lastOf q l

lemma lastOf_append (p : Point) (l₁ l₂ : List Point) :
    lastOf p (l₁ ++ l₂) = lastOf (lastOf p l₁) l₂ := by
  induction l₁ generalizing p with
  | nil => rfl
  | cons q t ih => simp [lastOf, ih]

lemma lastOf_getLast? (p : Point) (l : List Point) :
    (p :: l).getLast? = some (lastOf p l) := by
  induction l generalizing p with
  | nil => rfl
  | cons q t ih => rw [List.getLast?_cons_cons, ih]; rfl

/-- Core specification of the loop: when it succeeds, the produced segment is
a chain of adjacent cells starting next to `curr`, it ends exactly at `p2`,
and its length is exactly the Manhattan distance. -/
lemma connectGo_spec (fuel : Nat) :
    ∀ (curr p2 : Point) (coins : List Bool) (seg : List Point) (rest : List Bool),
      connectGo fuel curr p2 coins = some (seg, rest) →
      List.Chain' adjacent (curr :: seg) ∧ lastOf curr seg = p2 ∧
        seg.length = manhattan curr p2 := by
  induction fuel with
  | zero =>
    intro curr p2 coins seg rest h
    by_cases hc : curr = p2
    · simp [connectGo, hc] at h
      refine ⟨by simp [h.1], by simp [h.1, lastOf, hc], ?_⟩
      subst hc
      simp [h.1, manhattan]
    · simp [connectGo, hc] at h
  | succ n ih =>
    intro curr p2 coins seg rest h
    by_cases hc : curr = p2
    · simp [connectGo, hc] at h
      refine ⟨by simp [h.1], by simp [h.1, lastOf, hc], ?_⟩
      subst hc
      simp [h.1, manhattan]
    · simp only [connectGo, if_neg hc] at h
      cases he : connectGo n (connectStep curr p2 coins.headI) p2 coins.tail with
      | none => rw [he] at h; simp at h
      | some v =>
        obtain ⟨seg', rest'⟩ := v
        rw [he] at h
        simp at h
        obtain ⟨hseg, hrest⟩ := h
        obtain ⟨hchain, hlast, hlen⟩ :=
          ih (connectStep curr p2 coins.headI) p2 coins.tail seg' rest' he
        subst hseg
        have hdist := connectStep_manhattan curr p2 coins.headI hc
        refine ⟨?_, ?_, ?_⟩
        · exact List.chain'_cons.mpr ⟨connectStep_adjacent curr p2 coins.headI hc, hchain⟩
        · simpa [lastOf] using hlast
        · simp [lastOf] at hlast ⊢
          omega

/-- `connectPoints` of the source: run the loop with exactly enough fuel
(`connectGo_isSome` shows the default is never taken), returning the segment
and the unconsumed coins. -/
def connectPoints (p1 p2 : Point) (coins : List Bool) : List Point × List Bool :=
  (connectGo (manhattan p1 p2) p1 p2 coins).getD ([], coins)

lemma connectPoints_eq (p1 p2 : Point) (coins : List Bool) :
    connectGo (manhattan p1 p2) p1 p2 coins
      = some ((connectPoints p1 p2 coins).1, (connectPoints p1 p2 coins).2) := by
  have h := connectGo_isSome (manhattan p1 p2) p1 p2 coins le_rfl
  cases he : connectGo (manhattan p1 p2) p1 p2 coins with
  | none => rw [he] at h; simp at h
  | some v => obtain ⟨seg, rest⟩ := v; simp [connectPoints, he]

/-- The hardcoded intermediate waypoints of `generateWindingPath`. -/
def interiorWaypoints : List Point :=
  [⟨2, 12⟩, ⟨6, 12⟩, ⟨6, 9⟩, ⟨2, 9⟩, ⟨2, 5⟩, ⟨10, 5⟩, ⟨10, 10⟩, ⟨13, 10⟩, ⟨13, 3⟩]

/-- The `for` loop of `generateWindingPath`: connect each consecutive pair of
waypoints and append the segments, threading the coin supply through. -/
def buildSegments : Point → List Point → List Bool → List Point
  | _, [], _ => []
  | prev, w :: ws, coins =>
    (connectPoints prev w coins).1 ++ buildSegments w ws (connectPoints prev w coins).2

/-- `generateWindingPath(start, end)` from `src/App.tsx`: `fullPath` starts
with `start` and accumulates the waypoint-to-waypoint segments. -/
def generateWindingPath (s e : Point) (coins : List Bool) : List Point :=
  s :: buildSegments s (interiorWaypoints ++ [e]) coins

/-- Total number of loop iterations needed to visit the waypoints in order. -/
def segLengths : Point → List Point → Nat
  | _, [] => 0
  | p, w :: ws => manhattan p w + segLengths w ws

/-- Gluing lemma for chains: a chain from `p` through `l₁` continued by a
chain starting at the last element of the first. -/
lemma chain'_cons_append {R : Point → Point → Prop} (l₁ : List Point) :
    ∀ (p : Point) (l₂ : List Point), List.Chain' R (p :: l₁) →
      List.Chain' R (lastOf p l₁ :: l₂) → List.Chain' R (p :: (l₁ ++ l₂)) := by
  induction l₁ with
  | nil => intro p l₂ _ h2; simpa [lastOf] using h2
  | cons q t ih =>
    intro p l₂ h1 h2
    rw [List.chain'_cons] at h1
    exact List.chain'_cons.mpr ⟨h1.1, ih q l₂ h1.2 (by simpa [lastOf] using h2)⟩

/-- Specification of the waypoint loop: the accumulated cell list is a chain
of adjacent cells, ends at the final waypoint, and its length is the sum of
the Manhattan distances between consecutive waypoints. -/
lemma buildSegments_spec (ws : List Point) :
    ∀ (prev : Point) (coins : List Bool),
      List.Chain' adjacent (prev :: buildSegments prev ws coins) ∧
      lastOf prev (buildSegments prev ws coins) = lastOf prev ws ∧
      (buildSegments prev ws coins).length = segLengths prev ws := by
  induction ws with
  | nil => intro prev coins; exact ⟨List.chain'_singleton prev, rfl, rfl⟩
  | cons w t ih =>
    intro prev coins
    have hsome := connectPoints_eq prev w coins
    obtain ⟨hchain, hlast, hlen⟩ :=
      connectGo_spec (manhattan prev w) prev w coins (connectPoints prev w coins).1
        (connectPoints prev w coins).2 hsome
    obtain ⟨ihchain, ihlast, ihlen⟩ := ih w (connectPoints prev w coins).2
    refine ⟨?_, ?_, ?_⟩
    · refine chain'_cons_append _ prev _ hchain ?_
      rw [hlast]
      exact ihchain
    · rw [buildSegments, lastOf_append, hlast, ihlast]
      rfl
    · simp [buildSegments, hlen, ihlen, segLengths]

/-- Claim C3: for every outcome of the random tie-breaks, the generated path
with start `(0,14)` and end `(14,0)` starts at the start cell, ends at the end
cell, and every pair of consecutive cells differs by exactly one unit in
exactly one axis. -/
theorem generateWindingPath_connected (coins : List Bool) :
    (generateWindingPath ⟨0, 14⟩ ⟨14, 0⟩ coins).head? = some ⟨0, 14⟩ ∧
    (generateWindingPath ⟨0, 14⟩ ⟨14, 0⟩ coins).getLast? = some ⟨14, 0⟩ ∧
    List.Chain' adjacent (generateWindingPath ⟨0, 14⟩ ⟨14, 0⟩ coins) := by
  obtain ⟨hchain, hlast, _⟩ :=
    buildSegments_spec (interiorWaypoints ++ [(⟨14, 0⟩ : Point)]) ⟨0, 14⟩ coins
  refine ⟨rfl, ?_, hchain⟩
  rw [generateWindingPath, lastOf_getLast?, hlast]
  rfl

/-- Closed-form witness instance for C3 at the empty coin list. -/
theorem generateWindingPath_connected_witness :
    (generateWindingPath ⟨0, 14⟩ ⟨14, 0⟩ []).head? = some ⟨0, 14⟩ ∧
    (generateWindingPath ⟨0, 14⟩ ⟨14, 0⟩ []).getLast? = some ⟨14, 0⟩ ∧
    List.Chain' adjacent (generateWindingPath ⟨0, 14⟩ ⟨14, 0⟩ []) :=
  generateWindingPath_connected []

/-- The generated path always has exactly 47 cells, whatever the coin
tosses: each segment's length is the Manhattan distance between its
endpoints. -/
lemma generateWindingPath_length (coins : List Bool) :
    (generateWindingPath ⟨0, 14⟩ ⟨14, 0⟩ coins).length = 47 := by
  obtain ⟨_, _, hlen⟩ :=
    buildSegments_spec (interiorWaypoints ++ [(⟨14, 0⟩ : Point)]) ⟨0, 14⟩ coins
  simp only [generateWindingPath, List.length_cons, hlen]
  rfl

/-! ## Checkpoint indices (src/components/IsoMap.tsx) -/

def CHECKPOINT_COUNT : Nat := 5

/-- `getCheckpointIndices` from `src/components/IsoMap.tsx`: for
`i = 1, ..., CHECKPOINT_COUNT` push `Math.floor(totalPathLength * (i / 6))`.
The float product-and-floor is modelled as natural floor division; at the
length `47` produced by the generator the IEEE-double evaluation agrees with
the exact rational floor for every `i`. -/
def getCheckpointIndices (totalPathLength : Nat) : List Nat :=
  (List.range CHECKPOINT_COUNT).map
    (fun i => totalPathLength * (i + 1) / (CHECKPOINT_COUNT + 1))

/-- Claim C4: for every generated path (any random outcome), the five
checkpoint indices computed from its length are strictly increasing, strictly
positive, and strictly below the path length. -/
theorem checkpointIndices_valid (coins : List Bool) :
    List.Chain' (fun a b => a < b)
        (getCheckpointIndices (generateWindingPath ⟨0, 14⟩ ⟨14, 0⟩ coins).length) ∧
      ∀ i ∈ getCheckpointIndices (generateWindingPath ⟨0, 14⟩ ⟨14, 0⟩ coins).length,
        0 < i ∧ i < (generateWindingPath ⟨0, 14⟩ ⟨14, 0⟩ coins).length := by
  rw [generateWindingPath_length coins]
  have h : getCheckpointIndices 47 = [7, 15, 23, 31, 39] := rfl
  rw [h]
  exact ⟨by simp [List.chain'_cons], by decide⟩

/-- Closed-form witness instance for C4 at the empty coin list. -/
theorem checkpointIndices_valid_witness :
    List.Chain' (fun a b => a < b)
        (getCheckpointIndices (generateWindingPath ⟨0, 14⟩ ⟨14, 0⟩ []).length) ∧
      ∀ i ∈ getCheckpointIndices (generateWindingPath ⟨0, 14⟩ ⟨14, 0⟩ []).length,
        0 < i ∧ i < (generateWindingPath ⟨0, 14⟩ ⟨14, 0⟩ []).length :=
  checkpointIndices_valid []

/-- Claim C8: the segment-connection loop terminates for every pair of
integer grid points.  Each iteration strictly decreases the Manhattan
distance to the target waypoint (it shrinks the remaining delta along the
axis it steps on), so the loop, run with any fuel of at least that distance,
returns after finitely many steps for every coin outcome. -/
theorem connectPoints_terminates (p1 p2 : Point) (coins : List Bool) (fuel : Nat)
    (hfuel : manhattan p1 p2 ≤ fuel) :
    (connectGo fuel p1 p2 coins).isSome = true ∧
      (p1 ≠ p2 → manhattan (connectStep p1 p2 coins.headI) p2 < manhattan p1 p2) := by
  refine ⟨connectGo_isSome fuel p1 p2 coins hfuel, fun h => ?_⟩
  have := connectStep_manhattan p1 p2 coins.headI h
  omega

/-- Witness for C8: the loop from `(0,14)` to `(2,12)` succeeds with fuel 4
and its first step strictly decreases the Manhattan distance. -/
theorem connectPoints_terminates_witness :
    manhattan ⟨0, 14⟩ ⟨2, 12⟩ ≤ 4 ∧
      ((connectGo 4 ⟨0, 14⟩ ⟨2, 12⟩ []).isSome = true ∧
        ((⟨0, 14⟩ : Point) ≠ ⟨2, 12⟩ →
          manhattan (connectStep ⟨0, 14⟩ ⟨2, 12⟩ ([] : List Bool).headI) ⟨2, 12⟩
            < manhattan ⟨0, 14⟩ ⟨2, 12⟩)) :=
  ⟨by decide, connectPoints_terminates ⟨0, 14⟩ ⟨2, 12⟩ [] 4 (by decide)⟩

/-- Claim C9: `generateWindingPath` is not deterministic.  With all tie-break
coins answering `x` the generated path differs from the one where they all
answer `y`, on the same start and end inputs. -/
theorem generateWindingPath_nondeterministic :
    generateWindingPath ⟨0, 14⟩ ⟨14, 0⟩ (List.replicate 50 true)
      ≠ generateWindingPath ⟨0, 14⟩ ⟨14, 0⟩ (List.replicate 50 false) := by
  decide

/-- The path computed once at startup by `createInitialState`, which fixes
`start = (0,14)` and `end = (14,0)`. -/
def appPath (coins : List Bool) : List Point :=
  generateWindingPath ⟨0, 14⟩ ⟨14, 0⟩ coins

/-! ## The cyclist state machine (src/components/IsoMap.tsx) -/

/-- `Array.prototype.indexOf`: position of the first occurrence of `v` in
`l`, or `-1` when `v` does not occur. -/
def jsIndexOf : List Int → Int → Int
  | [], _ => -1
  | a :: rest, v =>
    if a = v then 0
    else if jsIndexOf rest v = -1 then -1 else jsIndexOf rest v + 1

lemma jsIndexOf_nonneg (l : List Int) (v : Int) :
    jsIndexOf l v = -1 ∨ 0 ≤ jsIndexOf l v := by
  induction l with
  | nil => left; rfl
  | cons a rest ih =>
    rw [jsIndexOf]
    split_ifs with h1 h2
    · right; omega
    · left; rfl
    · rcases ih with h | h
      · exact absurd h h2
      · right; omega

lemma jsIndexOf_mem (l : List Int) (v : Int) : jsIndexOf l v ≠ -1 ↔ v ∈ l := by
  induction l with
  | nil => simp [jsIndexOf]
  | cons a rest ih =>
    rw [jsIndexOf]
    split_ifs with h1 h2
    · constructor
      · intro _; exact List.mem_cons.mpr (Or.inl h1.symm)
      · intro _; omega
    · constructor
      · intro h; exact absurd rfl h
      · intro h
        rcases List.mem_cons.mp h with h | h
        · exact absurd h.symm h1
        · exact absurd h2 (ih.mpr h)
    · rcases jsIndexOf_nonneg rest v with h0 | h0
      · exact absurd h0 h2
      · constructor
        · intro _; exact List.mem_cons.mpr (Or.inr (ih.mp h2))
        · intro _; omega

lemma jsIndexOf_get (l : List Int) (v : Int) (h : jsIndexOf l v ≠ -1) :
    l.get? (jsIndexOf l v).toNat = some v := by
  induction l with
  | nil => simp [jsIndexOf] at h
  | cons a rest ih =>
    rw [jsIndexOf] at h ⊢
    split_ifs at h ⊢ with h1 h2
    · simp [h1]
    · exact absurd rfl h
    · rcases jsIndexOf_nonneg rest v with h0 | h0
      · exact absurd h0 h2
      · have ht : (jsIndexOf rest v + 1).toNat = (jsIndexOf rest v).toNat + 1 := by omega
        rw [ht]
        simpa using ih h2

/-- A found position determines the element looked for (`indexOf` returns
the position of the first occurrence). -/
lemma jsIndexOf_inj (l : List Int) (v w : Int) (hv : jsIndexOf l v ≠ -1)
    (h : jsIndexOf l v = jsIndexOf l w) : v = w := by
  have hw : jsIndexOf l w ≠ -1 := by rw [← h]; exact hv
  have h1 := jsIndexOf_get l v hv
  have h2 := jsIndexOf_get l w hw
  rw [h] at h1
  rw [h1] at h2
  exact Option.some_inj.mp h2

/-- Cyclist speed: `const speed = 1.2`. -/
def speed : ℚ := 1.2

/-- Mutable state of the `Cyclist` component: the `progress` scalar (a float,
modelled over `ℚ`), the `lastTriggeredCheckpoint` ref and the `hasFinished`
ref, with their initial values in `initCyclist`. -/
structure CyclistState where
  progress : ℚ
  lastTriggeredCheckpoint : Int
  hasFinished : Bool
deriving DecidableEq, Repr

def initCyclist : CyclistState := ⟨0, -1, false⟩

/-- Observable outcome of one `useFrame` call: the state afterwards, the
argument of an `onReachCheckpoint` call if one was made, whether `onFinish`
was called, and (for specification purposes) the `currentIndex` value
`Math.floor(newProgress)` computed by the movement block, `none` when the
movement block was skipped. -/
structure FrameResult where
  state : CyclistState
  reachedCheckpoint : Option Int
  finished : Bool
  currentIndex : Option Int
deriving DecidableEq, Repr

/-- The checkpoint path indices as JavaScript numbers
(`useMemo(() => getCheckpointIndices(path.length))`). -/
def checkpointIndicesInt (path : List Point) : List Int :=
  (getCheckpointIndices path.length).map (fun n => (n : Int))

/-- The new progress value `progress + speed * delta` computed by the
movement block. -/
def newProgressOf (delta : ℚ) (s : CyclistState) : ℚ :=
  s.progress + speed * delta

/-- `newProgress >= totalDistance - 1`: this frame clamps and finishes. -/
def finishingAfter (total delta : ℚ) (s : CyclistState) : Bool :=
  total - 1 ≤ newProgressOf delta s

/-- The value stored by `setProgress`: clamped to `totalDistance - 1` when
finishing, `newProgress` otherwise. -/
def progressAfter (total delta : ℚ) (s : CyclistState) : ℚ :=
  if total - 1 ≤ newProgressOf delta s then total - 1 else newProgressOf delta s

/-- The movement block of `useFrame` (entered only when
`!isPaused && !hasFinished.current`): advance/clamp the progress, set
`hasFinished` and fire `onFinish` on clamping, then run the checkpoint
trigger logic on `currentIndex = Math.floor(newProgress)` guarded by
`lastTriggeredCheckpoint`. -/
def movementFrame (total : ℚ) (indices : List Int) (delta : ℚ) (s : CyclistState) :
    FrameResult :=
  if jsIndexOf indices ⌊newProgressOf delta s⌋ ≠ -1 then
    if s.lastTriggeredCheckpoint ≠ ⌊newProgressOf delta s⌋ then
      { state := ⟨progressAfter total delta s, ⌊newProgressOf delta s⌋,
          finishingAfter total delta s⟩,
        reachedCheckpoint := some (jsIndexOf indices ⌊newProgressOf delta s⌋),
        finished := finishingAfter total delta s,
        currentIndex := some ⌊newProgressOf delta s⌋ }
    else
      { state := ⟨progressAfter total delta s, s.lastTriggeredCheckpoint,
          finishingAfter total delta s⟩,
        reachedCheckpoint := none,
        finished := finishingAfter total delta s,
        currentIndex := some ⌊newProgressOf delta s⌋ }
  else
    { state := ⟨progressAfter total delta s, -1, finishingAfter total delta s⟩,
      reachedCheckpoint := none,
      finished := finishingAfter total delta s,
      currentIndex := some ⌊newProgressOf delta s⌋ }

/-- One `useFrame` call of the `Cyclist` with inputs `isPaused` and the
frame's elapsed time `delta`.  The early return on `path.length < 2` and the
pause/finish gate leave the state untouched and fire no callback. -/
def frameUpdate (path : List Point) (isPaused : Bool) (delta : ℚ) (s : CyclistState) :
    FrameResult :=
  if path.length < 2 then ⟨s, none, false, none⟩
  else if isPaused || s.hasFinished then ⟨s, none, false, none⟩
  else movementFrame (path.length : ℚ) (checkpointIndicesInt path) delta s

/-- Final cyclist state after a sequence of frames. -/
def runFrames (path : List Point) : List (Bool × ℚ) → CyclistState → CyclistState
  | [], s => s
  | f :: rest, s => runFrames path rest (frameUpdate path f.1 f.2 s).state

/-- Observable trace of a sequence of frames. -/
def cyclistTrace (path : List Point) : CyclistState → List (Bool × ℚ) → List FrameResult
  | _, [] => []
  | s, f :: rest =>
    frameUpdate path f.1 f.2 s :: cyclistTrace path (frameUpdate path f.1 f.2 s).state rest

lemma movementFrame_state_progress (total : ℚ) (indices : List Int) (delta : ℚ)
    (s : CyclistState) :
    (movementFrame total indices delta s).state.progress = progressAfter total delta s := by
  unfold movementFrame; split_ifs <;> rfl

lemma movementFrame_state_hasFinished (total : ℚ) (indices : List Int) (delta : ℚ)
    (s : CyclistState) :
    (movementFrame total indices delta s).state.hasFinished = finishingAfter total delta s := by
  unfold movementFrame; split_ifs <;> rfl

lemma movementFrame_finished (total : ℚ) (indices : List Int) (delta : ℚ)
    (s : CyclistState) :
    (movementFrame total indices delta s).finished = finishingAfter total delta s := by
  unfold movementFrame; split_ifs <;> rfl

lemma movementFrame_currentIndex (total : ℚ) (indices : List Int) (delta : ℚ)
    (s : CyclistState) :
    (movementFrame total indices delta s).currentIndex = some ⌊newProgressOf delta s⌋ := by
  unfold movementFrame; split_ifs <;> rfl

/-- Frames that skip the movement block leave everything unchanged. -/
lemma frameUpdate_skip (path : List Point) (p : Bool) (delta : ℚ) (s : CyclistState)
    (h : path.length < 2 ∨ p = true ∨ s.hasFinished = true) :
    frameUpdate path p delta s = ⟨s, none, false, none⟩ := by
  unfold frameUpdate
  split_ifs with h1 h2
  · rfl
  · rfl
  · exfalso
    rcases h with h | h | h
    · exact h1 h
    · simp [h] at h2
    · simp [h] at h2

lemma frameUpdate_move (path : List Point) (p : Bool) (delta : ℚ) (s : CyclistState)
    (h1 : ¬ path.length < 2) (h2 : p = false) (h3 : s.hasFinished = false) :
    frameUpdate path p delta s
      = movementFrame (path.length : ℚ) (checkpointIndicesInt path) delta s := by
  unfold frameUpdate
  rw [if_neg h1, if_neg (by simp [h2, h3])]

/-- Reachability invariant of the cyclist state: the progress scalar lies in
`[0, pathLength - 1]` and the finished flag holds exactly at the clamp
value. -/
def CyclistInv (L : ℚ) (s : CyclistState) : Prop :=
  0 ≤ s.progress ∧ s.progress ≤ L - 1 ∧ (s.hasFinished = true ↔ s.progress = L - 1)

lemma initCyclist_inv (L : ℚ) (hL : 2 ≤ L) : CyclistInv L initCyclist := by
  refine ⟨le_rfl, by simp [initCyclist]; linarith, ?_⟩
  simp only [initCyclist]
  constructor
  · intro h; simp at h
  · intro h; exfalso; linarith [h.symm]

lemma frameUpdate_inv (path : List Point) (p : Bool) (delta : ℚ) (s : CyclistState)
    (hlen : 2 ≤ path.length) (hd : 0 ≤ delta)
    (hs : CyclistInv (path.length : ℚ) s) :
    CyclistInv (path.length : ℚ) (frameUpdate path p delta s).state := by
  by_cases hp : p = true
  · rw [frameUpdate_skip path p delta s (Or.inr (Or.inl hp))]; exact hs
  by_cases hf : s.hasFinished = true
  · rw [frameUpdate_skip path p delta s (Or.inr (Or.inr hf))]; exact hs
  have hp' : p = false := by cases p with | false => rfl | true => exact absurd rfl hp
  have hf' : s.hasFinished = false := by
    cases hfc : s.hasFinished with | false => rfl | true => exact absurd hfc hf
  rw [frameUpdate_move path p delta s (by omega) hp' hf']
  obtain ⟨h0, h1, h2⟩ := hs
  have hL : (2 : ℚ) ≤ (path.length : ℚ) := by exact_mod_cast hlen
  have hlt : s.progress < (path.length : ℚ) - 1 := by
    rcases lt_or_eq_of_le h1 with h | h
    · exact h
    · exact absurd (h2.mpr h) (by simp [hf'])
  have hsp : 0 ≤ speed * delta := mul_nonneg (by norm_num [speed]) hd
  refine ⟨?_, ?_, ?_⟩
  · rw [movementFrame_state_progress]
    unfold progressAfter newProgressOf
    split_ifs with hfin
    · linarith
    · linarith
  · rw [movementFrame_state_progress]
    unfold progressAfter newProgressOf
    split_ifs with hfin
    · exact le_rfl
    · unfold newProgressOf at hfin; linarith
  · rw [movementFrame_state_hasFinished, movementFrame_state_progress]
    unfold finishingAfter progressAfter newProgressOf
    split_ifs with hfin
    · simpa using hfin
    · simp only [decide_eq_true_eq]
      constructor
      · intro h; exact absurd h hfin
      · intro h; exfalso; unfold newProgressOf at hfin; exact hfin (le_of_eq h.symm)

lemma frameUpdate_progress_le (path : List Point) (p : Bool) (delta : ℚ) (s : CyclistState)
    (hd : 0 ≤ delta) (h1 : s.progress ≤ (path.length : ℚ) - 1) :
    s.progress ≤ (frameUpdate path p delta s).state.progress := by
  have hsp : 0 ≤ speed * delta := mul_nonneg (by norm_num [speed]) hd
  unfold frameUpdate
  split_ifs with ha hb
  · exact le_rfl
  · exact le_rfl
  · rw [movementFrame_state_progress]
    unfold progressAfter newProgressOf
    split_ifs with hfin
    · exact h1
    · linarith

lemma frameUpdate_finished_stuck (path : List Point) (p : Bool) (delta : ℚ)
    (s : CyclistState) (hf : s.hasFinished = true) :
    frameUpdate path p delta s = ⟨s, none, false, none⟩ :=
  frameUpdate_skip path p delta s (Or.inr (Or.inr hf))

lemma runFrames_append (path : List Point) (a b : List (Bool × ℚ)) (s : CyclistState) :
    runFrames path (a ++ b) s = runFrames path b (runFrames path a s) := by
  induction a generalizing s with
  | nil => rfl
  | cons f t ih => simp only [List.cons_append, runFrames]; exact ih _

lemma runFrames_inv_mono (path : List Point) (hlen : 2 ≤ path.length)
    (frames : List (Bool × ℚ)) :
    ∀ s : CyclistState, (∀ f ∈ frames, 0 ≤ f.2) → CyclistInv (path.length : ℚ) s →
      CyclistInv (path.length : ℚ) (runFrames path frames s) ∧
        s.progress ≤ (runFrames path frames s).progress := by
  induction frames with
  | nil => intro s _ hs; exact ⟨hs, le_rfl⟩
  | cons f t ih =>
    intro s hd hs
    have hdf : 0 ≤ f.2 := hd f (List.mem_cons_self f t)
    have hinv := frameUpdate_inv path f.1 f.2 s hlen hdf hs
    have hle := frameUpdate_progress_le path f.1 f.2 s hdf hs.2.1
    obtain ⟨ia, ib⟩ := ih (frameUpdate path f.1 f.2 s).state
      (fun g hg => hd g (List.mem_cons_of_mem f hg)) hinv
    exact ⟨ia, le_trans hle ib⟩

lemma runFrames_finished_stuck (path : List Point) (frames : List (Bool × ℚ)) :
    ∀ s : CyclistState, s.hasFinished = true → runFrames path frames s = s := by
  induction frames with
  | nil => intro s _; rfl
  | cons f t ih =>
    intro s hf
    rw [runFrames, frameUpdate_finished_stuck path f.1 f.2 s hf]
    exact ih s hf

lemma appPath_length (coins : List Bool) : (appPath coins).length = 47 :=
  generateWindingPath_length coins

/-- Claim C1: for every sequence of frame updates (any non-negative deltas,
any pause pattern), the cyclist's progress stays in `[0, pathLength - 1]`,
never decreases across updates, and once the finished flag is set the
progress equals exactly `pathLength - 1` and the state never changes again
(until a restart remounts the component). -/
theorem cyclist_progress_clamped (coins : List Bool) (frames more : List (Bool × ℚ))
    (h : ∀ f ∈ frames ++ more, 0 ≤ f.2) :
    0 ≤ (runFrames (appPath coins) frames initCyclist).progress ∧
    (runFrames (appPath coins) frames initCyclist).progress
      ≤ ((appPath coins).length : ℚ) - 1 ∧
    (runFrames (appPath coins) frames initCyclist).progress
      ≤ (runFrames (appPath coins) (frames ++ more) initCyclist).progress ∧
    ((runFrames (appPath coins) frames initCyclist).hasFinished = true →
      (runFrames (appPath coins) frames initCyclist).progress
          = ((appPath coins).length : ℚ) - 1 ∧
        runFrames (appPath coins) (frames ++ more) initCyclist
          = runFrames (appPath coins) frames initCyclist) := by
  have hlen : 2 ≤ (appPath coins).length := by rw [appPath_length]; omega
  have hL : (2 : ℚ) ≤ ((appPath coins).length : ℚ) := by exact_mod_cast hlen
  have hdf : ∀ f ∈ frames, 0 ≤ f.2 := fun f hf => h f (List.mem_append_left more hf)
  have hdm : ∀ f ∈ more, 0 ≤ f.2 := fun f hf => h f (List.mem_append_right frames hf)
  obtain ⟨hinv, _⟩ :=
    runFrames_inv_mono (appPath coins) hlen frames initCyclist hdf
      (initCyclist_inv _ hL)
  obtain ⟨_, hmono⟩ :=
    runFrames_inv_mono (appPath coins) hlen more
      (runFrames (appPath coins) frames initCyclist) hdm hinv
  rw [runFrames_append]
  exact ⟨hinv.1, hinv.2.1, hmono, fun hf =>
    ⟨hinv.2.2.mp hf,
      runFrames_finished_stuck (appPath coins) more
        (runFrames (appPath coins) frames initCyclist) hf⟩⟩

/-- Witness for C1 at a concrete run: two one-second unpaused frames. -/
theorem cyclist_progress_clamped_witness :
    (∀ f ∈ ([(false, (1 : ℚ))] ++ [(false, (1 : ℚ))]), 0 ≤ f.2) ∧
    (0 ≤ (runFrames (appPath []) [(false, (1 : ℚ))] initCyclist).progress ∧
    (runFrames (appPath []) [(false, (1 : ℚ))] initCyclist).progress
      ≤ ((appPath []).length : ℚ) - 1 ∧
    (runFrames (appPath []) [(false, (1 : ℚ))] initCyclist).progress
      ≤ (runFrames (appPath []) ([(false, (1 : ℚ))] ++ [(false, (1 : ℚ))]) initCyclist).progress ∧
    ((runFrames (appPath []) [(false, (1 : ℚ))] initCyclist).hasFinished = true →
      (runFrames (appPath []) [(false, (1 : ℚ))] initCyclist).progress
          = ((appPath []).length : ℚ) - 1 ∧
        runFrames (appPath []) ([(false, (1 : ℚ))] ++ [(false, (1 : ℚ))]) initCyclist
          = runFrames (appPath []) [(false, (1 : ℚ))] initCyclist)) :=
  ⟨by norm_num,
    cyclist_progress_clamped [] [(false, (1 : ℚ))] [(false, (1 : ℚ))] (by norm_num)⟩

lemma movementFrame_fires (total : ℚ) (indices : List Int) (delta : ℚ) (s : CyclistState)
    (h1 : jsIndexOf indices ⌊newProgressOf delta s⌋ ≠ -1)
    (h2 : s.lastTriggeredCheckpoint ≠ ⌊newProgressOf delta s⌋) :
    (movementFrame total indices delta s).reachedCheckpoint
      = some (jsIndexOf indices ⌊newProgressOf delta s⌋) := by
  unfold movementFrame
  rw [if_pos h1, if_pos h2]

lemma movementFrame_fire_inv (total : ℚ) (indices : List Int) (delta : ℚ)
    (s : CyclistState) (k : Int)
    (h : (movementFrame total indices delta s).reachedCheckpoint = some k) :
    jsIndexOf indices ⌊newProgressOf delta s⌋ = k ∧ k ≠ -1 ∧
      s.lastTriggeredCheckpoint ≠ ⌊newProgressOf delta s⌋ ∧
      (movementFrame total indices delta s).state.lastTriggeredCheckpoint
        = ⌊newProgressOf delta s⌋ := by
  unfold movementFrame at h ⊢
  split_ifs at h ⊢ with h1 h2
  simp only [Option.some_inj] at h
  exact ⟨h, h ▸ h1, h2, rfl⟩

/-- After a checkpoint with `indexOf` position `k` has fired, this predicate
keeps holding and precludes any further fire at position `k`: either the run
has finished, or the progress has reached the fired index and the
last-trigger ref still points at it, or the progress has moved past it. -/
def FiredGuard (indices : List Int) (k : Int) (s : CyclistState) : Prop :=
  ∀ c : Int, jsIndexOf indices c = k →
    s.hasFinished = true ∨
      ((c : ℚ) ≤ s.progress ∧
        (s.lastTriggeredCheckpoint = c ∨ (c : ℚ) + 1 ≤ s.progress))

lemma movementFrame_fire_guard (total : ℚ) (indices : List Int) (delta : ℚ)
    (s : CyclistState) (k : Int)
    (h : (movementFrame total indices delta s).reachedCheckpoint = some k) :
    FiredGuard indices k (movementFrame total indices delta s).state := by
  obtain ⟨hidx, hk, _, hlt⟩ := movementFrame_fire_inv total indices delta s k h
  intro c hc
  have hc' : c = ⌊newProgressOf delta s⌋ :=
    jsIndexOf_inj indices c ⌊newProgressOf delta s⌋ (hc ▸ hk) (hc.trans hidx.symm)
  subst hc'
  by_cases hfin : total - 1 ≤ newProgressOf delta s
  · left
    rw [movementFrame_state_hasFinished]
    simpa [finishingAfter] using hfin
  · right
    have hprog : (movementFrame total indices delta s).state.progress
        = newProgressOf delta s := by
      rw [movementFrame_state_progress, progressAfter, if_neg hfin]
    rw [hprog, hlt]
    exact ⟨Int.floor_le (newProgressOf delta s), Or.inl rfl⟩

lemma movementFrame_guard (total : ℚ) (indices : List Int) (delta : ℚ) (s : CyclistState)
    (hd : 0 ≤ delta) (hfin : s.hasFinished = false) (k : Int) (hk : k ≠ -1)
    (hg : FiredGuard indices k s) :
    (movementFrame total indices delta s).reachedCheckpoint ≠ some k ∧
      FiredGuard indices k (movementFrame total indices delta s).state := by
  have hsp : 0 ≤ speed * delta := mul_nonneg (by norm_num [speed]) hd
  have hnp : s.progress ≤ newProgressOf delta s := by
    unfold newProgressOf; linarith
  constructor
  · intro hfire
    obtain ⟨hidx, _, hne, _⟩ := movementFrame_fire_inv total indices delta s k hfire
    rcases hg ⌊newProgressOf delta s⌋ hidx with h | ⟨_, h | h⟩
    · rw [h] at hfin; cases hfin
    · exact hne h
    · have : (⌊newProgressOf delta s⌋ : ℚ) + 1 ≤ newProgressOf delta s := le_trans h hnp
      have := Int.le_floor.mpr (by exact_mod_cast this :
        ((⌊newProgressOf delta s⌋ + 1 : Int) : ℚ) ≤ newProgressOf delta s)
      omega
  · intro c hc
    have hcmem : c ∈ indices := (jsIndexOf_mem indices c).mp (hc ▸ hk)
    rcases hg c hc with h | ⟨hcle, hdis⟩
    · rw [h] at hfin; cases hfin
    by_cases hfinish : total - 1 ≤ newProgressOf delta s
    · left
      rw [movementFrame_state_hasFinished]
      simpa [finishingAfter] using hfinish
    right
    have hprog : (movementFrame total indices delta s).state.progress
        = newProgressOf delta s := by
      rw [movementFrame_state_progress, progressAfter, if_neg hfinish]
    rw [hprog]
    refine ⟨le_trans hcle hnp, ?_⟩
    have hcfloor : c ≤ ⌊newProgressOf delta s⌋ := Int.le_floor.mpr (le_trans hcle hnp)
    unfold movementFrame
    split_ifs with h1 h2
    · by_cases hceq : ⌊newProgressOf delta s⌋ = c
      · left; exact hceq
      · right
        have : c + 1 ≤ ⌊newProgressOf delta s⌋ := by omega
        calc (c : ℚ) + 1 ≤ (⌊newProgressOf delta s⌋ : ℚ) := by exact_mod_cast this
          _ ≤ newProgressOf delta s := Int.floor_le _
    · rcases hdis with h | h
      · left; exact h
      · right; exact le_trans h hnp
    · have hne : ⌊newProgressOf delta s⌋ ≠ c := by
        intro he
        exact h1 (by rw [he, hc]; exact hk)
      right
      have : c + 1 ≤ ⌊newProgressOf delta s⌋ := by omega
      calc (c : ℚ) + 1 ≤ (⌊newProgressOf delta s⌋ : ℚ) := by exact_mod_cast this
        _ ≤ newProgressOf delta s := Int.floor_le _

lemma frameUpdate_guard (path : List Point) (p : Bool) (delta : ℚ) (s : CyclistState)
    (hd : 0 ≤ delta) (k : Int) (hk : k ≠ -1)
    (hg : FiredGuard (checkpointIndicesInt path) k s) :
    (frameUpdate path p delta s).reachedCheckpoint ≠ some k ∧
      FiredGuard (checkpointIndicesInt path) k (frameUpdate path p delta s).state := by
  unfold frameUpdate
  split_ifs with h1 h2
  · exact ⟨by simp, hg⟩
  · exact ⟨by simp, hg⟩
  · have hfin : s.hasFinished = false := by
      cases hfc : s.hasFinished with
      | false => rfl
      | true => rw [hfc] at h2; simp at h2
    exact movementFrame_guard (path.length : ℚ) (checkpointIndicesInt path) delta s
      hd hfin k hk hg

lemma frameUpdate_fire_guard (path : List Point) (p : Bool) (delta : ℚ) (s : CyclistState)
    (k : Int) (h : (frameUpdate path p delta s).reachedCheckpoint = some k) :
    k ≠ -1 ∧ FiredGuard (checkpointIndicesInt path) k (frameUpdate path p delta s).state := by
  unfold frameUpdate at h ⊢
  split_ifs at h ⊢ with h1 h2
  exact ⟨(movementFrame_fire_inv _ _ _ _ _ h).2.1,
    movementFrame_fire_guard _ _ _ _ _ h⟩

lemma trace_no_fire (path : List Point) (k : Int) (hk : k ≠ -1) (frames : List (Bool × ℚ)) :
    ∀ s : CyclistState, (∀ f ∈ frames, 0 ≤ f.2) →
      FiredGuard (checkpointIndicesInt path) k s →
      (cyclistTrace path s frames).countP
        (fun r => decide (r.reachedCheckpoint = some k)) = 0 := by
  induction frames with
  | nil => intro s _ _; rfl
  | cons f t ih =>
    intro s hd hg
    obtain ⟨hno, hg'⟩ :=
      frameUpdate_guard path f.1 f.2 s (hd f (List.mem_cons_self f t)) k hk hg
    rw [cyclistTrace, List.countP_cons,
      ih (frameUpdate path f.1 f.2 s).state
        (fun g hgm => hd g (List.mem_cons_of_mem f hgm)) hg']
    simp [hno]

lemma trace_at_most_one (path : List Point) (k : Int) (frames : List (Bool × ℚ)) :
    ∀ s : CyclistState, (∀ f ∈ frames, 0 ≤ f.2) →
      (cyclistTrace path s frames).countP
        (fun r => decide (r.reachedCheckpoint = some k)) ≤ 1 := by
  induction frames with
  | nil => intro s _; simp [cyclistTrace]
  | cons f t ih =>
    intro s hd
    rw [cyclistTrace, List.countP_cons]
    by_cases hr : (frameUpdate path f.1 f.2 s).reachedCheckpoint = some k
    · obtain ⟨hk, hg⟩ := frameUpdate_fire_guard path f.1 f.2 s k hr
      rw [trace_no_fire path k hk t (frameUpdate path f.1 f.2 s).state
          (fun g hgm => hd g (List.mem_cons_of_mem f hgm)) hg]
      simp [hr]
    · have := ih (frameUpdate path f.1 f.2 s).state
        (fun g hgm => hd g (List.mem_cons_of_mem f hgm))
      simp only [hr]
      simp
      omega

lemma frameUpdate_lastTrig_cases (path : List Point) (p : Bool) (delta : ℚ)
    (s : CyclistState) :
    (frameUpdate path p delta s).state.lastTriggeredCheckpoint = s.lastTriggeredCheckpoint ∨
    (frameUpdate path p delta s).state.lastTriggeredCheckpoint = -1 ∨
    (frameUpdate path p delta s).currentIndex
      = some ((frameUpdate path p delta s).state.lastTriggeredCheckpoint) := by
  unfold frameUpdate movementFrame
  split_ifs <;> simp

/-- The last-trigger ref always holds `-1`, its previous value, or the
`currentIndex` of some frame in the trace. -/
lemma runFrames_lastTrig_provenance (path : List Point) (frames : List (Bool × ℚ)) :
    ∀ s : CyclistState,
      (runFrames path frames s).lastTriggeredCheckpoint = s.lastTriggeredCheckpoint ∨
      (runFrames path frames s).lastTriggeredCheckpoint = -1 ∨
      ∃ r ∈ cyclistTrace path s frames,
        r.currentIndex = some ((runFrames path frames s).lastTriggeredCheckpoint) := by
  induction frames with
  | nil => intro s; left; rfl
  | cons f t ih =>
    intro s
    simp only [runFrames, cyclistTrace]
    rcases ih (frameUpdate path f.1 f.2 s).state with h | h | ⟨r, hr, hcur⟩
    · rw [h]
      rcases frameUpdate_lastTrig_cases path f.1 f.2 s with h2 | h2 | h2
      · left; exact h2
      · right; left; exact h2
      · right; right
        exact ⟨frameUpdate path f.1 f.2 s, List.mem_cons_self _ _, h2⟩
    · right; left; exact h
    · right; right; exact ⟨r, List.mem_cons_of_mem _ hr, hcur⟩

/-- Claim C2: along any frame sequence each checkpoint fires at most once per
visit — the trace contains at most one `onReachCheckpoint(k)` call for each
`k` — and the checkpoint does fire on the first update whose floored progress
equals a checkpoint index not floored to before (also after a pause was
dismissed, since the guard compares against the floored index). -/
theorem checkpoint_fires_once_per_visit (coins : List Bool) (frames : List (Bool × ℚ))
    (delta : ℚ) (hF : ∀ f ∈ frames, 0 ≤ f.2) (hd : 0 ≤ delta) (k : Int) :
    (cyclistTrace (appPath coins) initCyclist frames).countP
        (fun r => decide (r.reachedCheckpoint = some k)) ≤ 1 ∧
    ((runFrames (appPath coins) frames initCyclist).hasFinished = false →
      (∀ r ∈ cyclistTrace (appPath coins) initCyclist frames,
          r.currentIndex
            ≠ some ⌊newProgressOf delta (runFrames (appPath coins) frames initCyclist)⌋) →
      jsIndexOf (checkpointIndicesInt (appPath coins))
          ⌊newProgressOf delta (runFrames (appPath coins) frames initCyclist)⌋ ≠ -1 →
      (frameUpdate (appPath coins) false delta
            (runFrames (appPath coins) frames initCyclist)).reachedCheckpoint
        = some (jsIndexOf (checkpointIndicesInt (appPath coins))
            ⌊newProgressOf delta (runFrames (appPath coins) frames initCyclist)⌋)) := by
  refine ⟨trace_at_most_one (appPath coins) k frames initCyclist hF, ?_⟩
  intro hfin hnone hidx
  have hlen : 2 ≤ (appPath coins).length := by rw [appPath_length]; omega
  have hL : (2 : ℚ) ≤ ((appPath coins).length : ℚ) := by exact_mod_cast hlen
  obtain ⟨hinv, _⟩ :=
    runFrames_inv_mono (appPath coins) hlen frames initCyclist hF (initCyclist_inv _ hL)
  have hsp : 0 ≤ speed * delta := mul_nonneg (by norm_num [speed]) hd
  have hnp0 : 0 ≤ newProgressOf delta (runFrames (appPath coins) frames initCyclist) := by
    have h0 := hinv.1
    unfold newProgressOf
    linarith
  have hfl0 : 0 ≤ ⌊newProgressOf delta (runFrames (appPath coins) frames initCyclist)⌋ :=
    Int.le_floor.mpr (by exact_mod_cast hnp0)
  have hne : (runFrames (appPath coins) frames initCyclist).lastTriggeredCheckpoint
      ≠ ⌊newProgressOf delta (runFrames (appPath coins) frames initCyclist)⌋ := by
    rcases runFrames_lastTrig_provenance (appPath coins) frames initCyclist
      with h | h | ⟨r, hr, hcur⟩
    · rw [h]
      have hinit : initCyclist.lastTriggeredCheckpoint = -1 := rfl
      rw [hinit]
      omega
    · rw [h]
      omega
    · intro he
      exact hnone r hr (by rw [hcur, he])
  rw [frameUpdate_move (appPath coins) false delta
    (runFrames (appPath coins) frames initCyclist) (by omega) rfl hfin]
  exact movementFrame_fires ((appPath coins).length : ℚ) (checkpointIndicesInt (appPath coins))
    delta (runFrames (appPath coins) frames initCyclist) hidx hne

/-- Witness for C2 at the empty frame list, unit delta and position 0. -/
theorem checkpoint_fires_once_per_visit_witness :
    (∀ f ∈ ([] : List (Bool × ℚ)), 0 ≤ f.2) ∧ (0 : ℚ) ≤ 1 ∧
    ((cyclistTrace (appPath []) initCyclist []).countP
        (fun r => decide (r.reachedCheckpoint = some 0)) ≤ 1 ∧
    ((runFrames (appPath []) [] initCyclist).hasFinished = false →
      (∀ r ∈ cyclistTrace (appPath []) initCyclist [],
          r.currentIndex
            ≠ some ⌊newProgressOf 1 (runFrames (appPath []) [] initCyclist)⌋) →
      jsIndexOf (checkpointIndicesInt (appPath []))
          ⌊newProgressOf 1 (runFrames (appPath []) [] initCyclist)⌋ ≠ -1 →
      (frameUpdate (appPath []) false 1
            (runFrames (appPath []) [] initCyclist)).reachedCheckpoint
        = some (jsIndexOf (checkpointIndicesInt (appPath []))
            ⌊newProgressOf 1 (runFrames (appPath []) [] initCyclist)⌋))) :=
  ⟨by simp, by norm_num,
    checkpoint_fires_once_per_visit [] [] 1 (by simp) (by norm_num) 0⟩

lemma frameUpdate_hasFinished_eq (path : List Point) (p : Bool) (delta : ℚ)
    (s : CyclistState) (h : s.hasFinished = false) :
    (frameUpdate path p delta s).state.hasFinished
      = (frameUpdate path p delta s).finished := by
  unfold frameUpdate
  split_ifs with h1 h2
  · exact h
  · exact h
  · rw [movementFrame_state_hasFinished, movementFrame_finished]

lemma frameUpdate_finished_sets (path : List Point) (p : Bool) (delta : ℚ)
    (s : CyclistState) (h : (frameUpdate path p delta s).finished = true) :
    (frameUpdate path p delta s).state.hasFinished = true := by
  by_cases hf : s.hasFinished = true
  · rw [frameUpdate_finished_stuck path p delta s hf] at h
    simp at h
  · have hf' : s.hasFinished = false := by
      cases hfc : s.hasFinished with
      | false => rfl
      | true => exact absurd hfc hf
    rw [frameUpdate_hasFinished_eq path p delta s hf', h]

lemma frameUpdate_finished_progress (path : List Point) (p : Bool) (delta : ℚ)
    (s : CyclistState) (h : (frameUpdate path p delta s).finished = true) :
    (frameUpdate path p delta s).state.progress = (path.length : ℚ) - 1 := by
  unfold frameUpdate at h ⊢
  split_ifs at h ⊢ with h1 h2
  rw [movementFrame_finished] at h
  rw [movementFrame_state_progress]
  unfold finishingAfter at h
  unfold progressAfter
  rw [if_pos (by simpa using h)]

lemma trace_finished_stuck (path : List Point) (frames : List (Bool × ℚ)) :
    ∀ s : CyclistState, s.hasFinished = true →
      (cyclistTrace path s frames).countP (fun r => r.finished) = 0 := by
  induction frames with
  | nil => intro s _; rfl
  | cons f t ih =>
    intro s hf
    rw [cyclistTrace, frameUpdate_finished_stuck path f.1 f.2 s hf, List.countP_cons]
    have := ih s hf
    simp only at this ⊢
    rw [this]
    simp

lemma trace_finish_at_most_one (path : List Point) (frames : List (Bool × ℚ)) :
    ∀ s : CyclistState,
      (cyclistTrace path s frames).countP (fun r => r.finished) ≤ 1 := by
  induction frames with
  | nil => intro s; simp [cyclistTrace]
  | cons f t ih =>
    intro s
    rw [cyclistTrace, List.countP_cons]
    by_cases hr : (frameUpdate path f.1 f.2 s).finished = true
    · rw [trace_finished_stuck path t (frameUpdate path f.1 f.2 s).state
        (frameUpdate_finished_sets path f.1 f.2 s hr)]
      simp [hr]
    · have := ih (frameUpdate path f.1 f.2 s).state
      simp only [Bool.not_eq_true] at hr
      simp [hr]
      omega

lemma trace_finish_reached (path : List Point) (frames : List (Bool × ℚ)) :
    ∀ s : CyclistState, s.hasFinished = false →
      (runFrames path frames s).hasFinished = true →
      1 ≤ (cyclistTrace path s frames).countP (fun r => r.finished) := by
  induction frames with
  | nil =>
    intro s h1 h2
    rw [runFrames] at h2
    rw [h2] at h1
    cases h1
  | cons f t ih =>
    intro s h1 h2
    rw [cyclistTrace, List.countP_cons]
    by_cases hr : (frameUpdate path f.1 f.2 s).finished = true
    · simp [hr]
    · have hsf : (frameUpdate path f.1 f.2 s).state.hasFinished = false := by
        rw [frameUpdate_hasFinished_eq path f.1 f.2 s h1]
        cases hfc : (frameUpdate path f.1 f.2 s).finished with
        | false => rfl
        | true => exact absurd hfc hr
      have := ih (frameUpdate path f.1 f.2 s).state hsf (by rw [runFrames] at h2; exact h2)
      omega

/-- Claim C5: the finish notification fires at most once, fires exactly once
whenever the run reaches the finished state, fires exactly on the update at
which the progress first reaches the last path index, and afterwards the
progress is clamped at that index and never advances. -/
theorem finish_fires_once (coins : List Bool) (frames more : List (Bool × ℚ)) (delta : ℚ)
    (hF : ∀ f ∈ frames, 0 ≤ f.2) (hd : 0 ≤ delta) :
    (cyclistTrace (appPath coins) initCyclist frames).countP (fun r => r.finished) ≤ 1 ∧
    ((runFrames (appPath coins) frames initCyclist).hasFinished = true →
      (cyclistTrace (appPath coins) initCyclist frames).countP (fun r => r.finished) = 1) ∧
    ((frameUpdate (appPath coins) false delta
        (runFrames (appPath coins) frames initCyclist)).finished = true ↔
      ((runFrames (appPath coins) frames initCyclist).progress
          < ((appPath coins).length : ℚ) - 1 ∧
        ((appPath coins).length : ℚ) - 1
          ≤ newProgressOf delta (runFrames (appPath coins) frames initCyclist))) ∧
    ((frameUpdate (appPath coins) false delta
        (runFrames (appPath coins) frames initCyclist)).finished = true →
      (frameUpdate (appPath coins) false delta
          (runFrames (appPath coins) frames initCyclist)).state.progress
        = ((appPath coins).length : ℚ) - 1 ∧
      runFrames (appPath coins) more
          (frameUpdate (appPath coins) false delta
            (runFrames (appPath coins) frames initCyclist)).state
        = (frameUpdate (appPath coins) false delta
            (runFrames (appPath coins) frames initCyclist)).state) := by
  have hlen : 2 ≤ (appPath coins).length := by rw [appPath_length]; omega
  have hL : (2 : ℚ) ≤ ((appPath coins).length : ℚ) := by exact_mod_cast hlen
  obtain ⟨hinv, _⟩ :=
    runFrames_inv_mono (appPath coins) hlen frames initCyclist hF (initCyclist_inv _ hL)
  refine ⟨trace_finish_at_most_one (appPath coins) frames initCyclist, ?_, ?_, ?_⟩
  · intro hfin
    have h1 := trace_finish_at_most_one (appPath coins) frames initCyclist
    have h2 := trace_finish_reached (appPath coins) frames initCyclist rfl hfin
    omega
  · by_cases hf : (runFrames (appPath coins) frames initCyclist).hasFinished = true
    · rw [frameUpdate_finished_stuck (appPath coins) false delta
        (runFrames (appPath coins) frames initCyclist) hf]
      constructor
      · intro h; simp at h
      · rintro ⟨h1, _⟩
        exfalso
        have := hinv.2.2.mp hf
        linarith
    · have hf' : (runFrames (appPath coins) frames initCyclist).hasFinished = false := by
        cases hfc : (runFrames (appPath coins) frames initCyclist).hasFinished with
        | false => rfl
        | true => exact absurd hfc hf
      have hlt : (runFrames (appPath coins) frames initCyclist).progress
          < ((appPath coins).length : ℚ) - 1 := by
        rcases lt_or_eq_of_le hinv.2.1 with h | h
        · exact h
        · exact absurd (hinv.2.2.mpr h) hf
      rw [frameUpdate_move (appPath coins) false delta
        (runFrames (appPath coins) frames initCyclist) (by omega) rfl hf',
        movementFrame_finished]
      unfold finishingAfter
      simp only [decide_eq_true_eq]
      constructor
      · intro h; exact ⟨hlt, h⟩
      · intro h; exact h.2
  · intro h
    refine ⟨frameUpdate_finished_progress (appPath coins) false delta
      (runFrames (appPath coins) frames initCyclist) h, ?_⟩
    exact runFrames_finished_stuck (appPath coins) more _
      (frameUpdate_finished_sets (appPath coins) false delta
        (runFrames (appPath coins) frames initCyclist) h)

/-- Witness for C5 at the empty frame lists and unit delta. -/
theorem finish_fires_once_witness :
    (∀ f ∈ ([] : List (Bool × ℚ)), 0 ≤ f.2) ∧ (0 : ℚ) ≤ 1 ∧
    ((cyclistTrace (appPath []) initCyclist []).countP (fun r => r.finished) ≤ 1 ∧
    ((runFrames (appPath []) [] initCyclist).hasFinished = true →
      (cyclistTrace (appPath []) initCyclist []).countP (fun r => r.finished) = 1) ∧
    ((frameUpdate (appPath []) false 1
        (runFrames (appPath []) [] initCyclist)).finished = true ↔
      ((runFrames (appPath []) [] initCyclist).progress
          < ((appPath []).length : ℚ) - 1 ∧
        ((appPath []).length : ℚ) - 1
          ≤ newProgressOf 1 (runFrames (appPath []) [] initCyclist))) ∧
    ((frameUpdate (appPath []) false 1
        (runFrames (appPath []) [] initCyclist)).finished = true →
      (frameUpdate (appPath []) false 1
          (runFrames (appPath []) [] initCyclist)).state.progress
        = ((appPath []).length : ℚ) - 1 ∧
      runFrames (appPath []) []
          (frameUpdate (appPath []) false 1
            (runFrames (appPath []) [] initCyclist)).state
        = (frameUpdate (appPath []) false 1
            (runFrames (appPath []) [] initCyclist)).state)) :=
  ⟨by simp, by norm_num, finish_fires_once [] [] [] 1 (by simp) (by norm_num)⟩

/-! ## Grid editor (src/App.tsx) -/

def GRID_SIZE : Nat := 15

/-- `enum BuildingType` from `src/types.ts` (used throughout the sources). -/
inductive BuildingType where
  | None
  | Road
  | Residential
  | Commercial
  | Industrial
  | Park
deriving DecidableEq, Repr

/-- `TileData` record: coordinates plus the building type. -/
structure TileData where
  x : Int
  y : Int
  buildingType : BuildingType
deriving DecidableEq, Repr

/-- `Grid = TileData[][]`, indexed `grid[y][x]`. -/
abbrev Grid := List (List TileData)

/-- Whether a coordinate belongs to the path (`pathSet.has` of
`createInitialState` and `path.some(p => p.x === x && p.y === y)` of
`handleTileClick` test the same membership). -/
def pointOnPath (path : List Point) (x y : Int) : Bool :=
  path.any (fun p => decide (p.x = x ∧ p.y = y))

/-- Tile type chosen by `createInitialState` for cell `(x, y)`, where `rand`
and `buildingRoll` are the tile's two `Math.random()` draws: path cells get
`Road`; the clear zone near the end point stays `None`; otherwise the random
decoration rolls pick a building or leave grass. -/
def tileType (path : List Point) (rand buildingRoll : ℚ) (x y : Int) : BuildingType :=
  if pointOnPath path x y then BuildingType.Road
  else if 12 ≤ x ∧ y ≤ 2 then BuildingType.None
  else if rand > 0.2 then
    if buildingRoll > 0.55 then BuildingType.Residential
    else if buildingRoll > 0.3 then BuildingType.Commercial
    else BuildingType.Park
  else BuildingType.None

/-- The grid built by `createInitialState`, with the per-tile random draws
supplied by `rnd`. -/
def createInitialGrid (path : List Point) (rnd : Nat → Nat → ℚ × ℚ) : Grid :=
  (List.range GRID_SIZE).map (fun (y : Nat) =>
    (List.range GRID_SIZE).map (fun (x : Nat) =>
      { x := (x : Int), y := (y : Int),
        buildingType := tileType path (rnd x y).1 (rnd x y).2 (x : Int) (y : Int) }))

/-- `grid[y][x]`, with a default tile for out-of-range access. -/
def tileAt (g : Grid) (x y : Nat) : TileData :=
  (g.getD y []).getD x ⟨0, 0, BuildingType.None⟩

/-- Replace `grid[y][x]` by `t`. -/
def setTile (g : Grid) (x y : Nat) (t : TileData) : Grid :=
  g.set y ((g.getD y []).set x t)

/-- `handleTileClick` from `src/App.tsx`: with the bulldoze tool
(`selectedTool === BuildingType.None`), clear the tile only when it is not on
the path; with a building tool, place it only when the tile's current type is
`None`. -/
def handleTileClick (path : List Point) (tool : BuildingType) (g : Grid) (x y : Nat) :
    Grid :=
  if tool = BuildingType.None then
    if pointOnPath path x y = false then
      setTile g x y { tileAt g x y with buildingType := BuildingType.None }
    else g
  else if (tileAt g x y).buildingType = BuildingType.None then
    setTile g x y { tileAt g x y with buildingType := tool }
  else g

/-- Grid states reachable from `init` by any sequence of tile clicks (any
tool may be selected before each click; click coordinates come from the
rendered grid tiles, hence lie inside the grid). -/
inductive Reachable (path : List Point) (init : Grid) : Grid → Prop
  | refl : Reachable path init init
  | click (g : Grid) (tool : BuildingType) (x y : Nat) (hx : x < GRID_SIZE)
      (hy : y < GRID_SIZE) (h : Reachable path init g) :
      Reachable path init (handleTileClick path tool g x y)

lemma tileAt_initial (path : List Point) (rnd : Nat → Nat → ℚ × ℚ) (x y : Nat)
    (hx : x < GRID_SIZE) (hy : y < GRID_SIZE) :
    tileAt (createInitialGrid path rnd) x y
      = ⟨(x : Int), (y : Int), tileType path (rnd x y).1 (rnd x y).2 (x : Int) (y : Int)⟩ := by
  unfold tileAt createInitialGrid
  simp only [List.getD_eq_getElem?_getD, List.getElem?_map]
  simp [List.getElem?_range, hx, hy]

lemma tileAt_setTile_ne (g : Grid) (x y : Nat) (t : TileData) (x' y' : Nat)
    (h : x ≠ x' ∨ y ≠ y') :
    tileAt (setTile g x y t) x' y' = tileAt g x' y' := by
  unfold tileAt setTile
  simp only [List.getD_eq_getElem?_getD]
  by_cases hy : y = y'
  · subst hy
    have hx : x ≠ x' := by
      rcases h with h | h
      · exact h
      · exact absurd rfl h
    rw [List.getElem?_set_self']
    cases hg : g[y]? with
    | none => simp [hg]
    | some row =>
      simp only [hg, Option.map_eq_map, Option.map_some', Option.getD_some,
        Function.const_apply]
      rw [List.getElem?_set_ne hx]
  · rw [List.getElem?_set_ne hy]

/-- Invariant: every in-grid tile whose coordinates lie on the path has type
`Road`. -/
def PathRoadInv (path : List Point) (g : Grid) : Prop :=
  ∀ x y : Nat, x < GRID_SIZE → y < GRID_SIZE → pointOnPath path x y = true →
    (tileAt g x y).buildingType = BuildingType.Road

lemma initial_path_road (path : List Point) (rnd : Nat → Nat → ℚ × ℚ) :
    PathRoadInv path (createInitialGrid path rnd) := by
  intro x y hx hy hp
  rw [tileAt_initial path rnd x y hx hy]
  simp only
  unfold tileType
  rw [if_pos hp]

lemma click_preserves_inv (path : List Point) (g : Grid) (tool : BuildingType)
    (x y : Nat) (hinv : PathRoadInv path g) :
    PathRoadInv path (handleTileClick path tool g x y) := by
  intro x' y' hx' hy' hp
  unfold handleTileClick
  split_ifs with h1 h2 h3
  · by_cases hxy : x = x' ∧ y = y'
    · exfalso
      rw [hxy.1, hxy.2] at h2
      rw [hp] at h2
      cases h2
    · rw [tileAt_setTile_ne g x y _ x' y' (by tauto)]
      exact hinv x' y' hx' hy' hp
  · exact hinv x' y' hx' hy' hp
  · by_cases hxy : x = x' ∧ y = y'
    · exfalso
      rw [hxy.1, hxy.2] at h3
      rw [hinv x' y' hx' hy' hp] at h3
      cases h3
    · rw [tileAt_setTile_ne g x y _ x' y' (by tauto)]
      exact hinv x' y' hx' hy' hp
  · exact hinv x' y' hx' hy' hp

lemma reachable_path_road (path : List Point) (rnd : Nat → Nat → ℚ × ℚ) (g : Grid)
    (h : Reachable path (createInitialGrid path rnd) g) : PathRoadInv path g := by
  induction h with
  | refl => exact initial_path_road path rnd
  | click g' tool x y hx hy hr ih => exact click_preserves_inv path g' tool x y ih

/-- Claim C10: in every grid state reachable from the initial grid by any
sequence of tile clicks, every tile whose coordinates lie on the generated
path has building type `Road`. -/
theorem path_tiles_always_road (coins : List Bool) (rnd : Nat → Nat → ℚ × ℚ) (g : Grid)
    (h : Reachable (appPath coins) (createInitialGrid (appPath coins) rnd) g)
    (x y : Nat) (hx : x < GRID_SIZE) (hy : y < GRID_SIZE)
    (hp : pointOnPath (appPath coins) x y = true) :
    (tileAt g x y).buildingType = BuildingType.Road :=
  reachable_path_road (appPath coins) rnd g h x y hx hy hp

/-- Witness for C10 at the initial grid and the start cell `(0, 14)`. -/
theorem path_tiles_always_road_witness :
    pointOnPath (appPath []) 0 14 = true ∧
    (tileAt (createInitialGrid (appPath []) (fun _ _ => (0, 0))) 0 14).buildingType
      = BuildingType.Road :=
  ⟨by decide,
    path_tiles_always_road [] (fun _ _ => (0, 0))
      (createInitialGrid (appPath []) (fun _ _ => (0, 0))) Reachable.refl 0 14
      (by decide) (by decide) (by decide)⟩

/-- Claim C6: from any reachable grid state, a click with a building tool
changes the clicked tile to the selected type exactly when the tile's current
type is `None` — in which case the tile is provably not on the path — and
otherwise leaves the grid unchanged; a click with the bulldoze tool clears
the tile exactly when it is not on the path and otherwise leaves the grid
unchanged. -/
theorem tile_click_rules (coins : List Bool) (rnd : Nat → Nat → ℚ × ℚ) (g : Grid)
    (h : Reachable (appPath coins) (createInitialGrid (appPath coins) rnd) g)
    (x y : Nat) (hx : x < GRID_SIZE) (hy : y < GRID_SIZE) (tool : BuildingType) :
    (tool ≠ BuildingType.None →
      ((tileAt g x y).buildingType = BuildingType.None →
        pointOnPath (appPath coins) x y = false ∧
          handleTileClick (appPath coins) tool g x y
            = setTile g x y { tileAt g x y with buildingType := tool }) ∧
      ((tileAt g x y).buildingType ≠ BuildingType.None →
        handleTileClick (appPath coins) tool g x y = g)) ∧
    (tool = BuildingType.None →
      (pointOnPath (appPath coins) x y = false →
        handleTileClick (appPath coins) tool g x y
          = setTile g x y { tileAt g x y with buildingType := BuildingType.None }) ∧
      (pointOnPath (appPath coins) x y = true →
        handleTileClick (appPath coins) tool g x y = g)) := by
  have hinv := reachable_path_road (appPath coins) rnd g h
  constructor
  · intro htool
    constructor
    · intro hnone
      have hnp : pointOnPath (appPath coins) x y = false := by
        cases hpc : pointOnPath (appPath coins) (x : Int) (y : Int) with
        | false => rfl
        | true =>
          have hroad := hinv x y hx hy hpc
          rw [hnone] at hroad
          cases hroad
      refine ⟨hnp, ?_⟩
      unfold handleTileClick
      rw [if_neg htool, if_pos hnone]
    · intro hsome
      unfold handleTileClick
      rw [if_neg htool, if_neg hsome]
  · intro htool
    constructor
    · intro hnp
      unfold handleTileClick
      rw [if_pos htool, if_pos hnp]
    · intro hyes
      unfold handleTileClick
      rw [if_pos htool, if_neg (by rw [hyes]; simp)]

/-- Witness for C6 at the initial grid, cell `(0, 0)` and the shop tool. -/
theorem tile_click_rules_witness :
    ((BuildingType.Commercial ≠ BuildingType.None →
      ((tileAt (createInitialGrid (appPath []) (fun _ _ => (0, 0))) 0 0).buildingType
          = BuildingType.None →
        pointOnPath (appPath []) 0 0 = false ∧
          handleTileClick (appPath []) BuildingType.Commercial
              (createInitialGrid (appPath []) (fun _ _ => (0, 0))) 0 0
            = setTile (createInitialGrid (appPath []) (fun _ _ => (0, 0))) 0 0
                { tileAt (createInitialGrid (appPath []) (fun _ _ => (0, 0))) 0 0 with
                    buildingType := BuildingType.Commercial }) ∧
      ((tileAt (createInitialGrid (appPath []) (fun _ _ => (0, 0))) 0 0).buildingType
          ≠ BuildingType.None →
        handleTileClick (appPath []) BuildingType.Commercial
            (createInitialGrid (appPath []) (fun _ _ => (0, 0))) 0 0
          = createInitialGrid (appPath []) (fun _ _ => (0, 0)))) ∧
    (BuildingType.Commercial = BuildingType.None →
      (pointOnPath (appPath []) 0 0 = false →
        handleTileClick (appPath []) BuildingType.Commercial
            (createInitialGrid (appPath []) (fun _ _ => (0, 0))) 0 0
          = setTile (createInitialGrid (appPath []) (fun _ _ => (0, 0))) 0 0
              { tileAt (createInitialGrid (appPath []) (fun _ _ => (0, 0))) 0 0 with
                  buildingType := BuildingType.None }) ∧
      (pointOnPath (appPath []) 0 0 = true →
        handleTileClick (appPath []) BuildingType.Commercial
            (createInitialGrid (appPath []) (fun _ _ => (0, 0))) 0 0
          = createInitialGrid (appPath []) (fun _ _ => (0, 0))))) :=
  tile_click_rules [] (fun _ _ => (0, 0))
    (createInitialGrid (appPath []) (fun _ _ => (0, 0))) Reachable.refl 0 0
    (by decide) (by decide) BuildingType.Commercial

/-! ## Restart (src/App.tsx) -/

/-- Top-level application state relevant to the restart handler: the grid,
the active checkpoint pause (`null` = cycling), the `cycleKey` used as the
`Cyclist`'s React key, and the cyclist state mounted under that key. -/
structure AppState where
  grid : Grid
  activeCheckpointIndex : Option Int
  cycleKey : Nat
  cyclist : CyclistState
deriving Repr

/-- `handleRestart`: clears the checkpoint pause and bumps `cycleKey`;
changing the `key` prop remounts the `Cyclist`, so the mounted cyclist state
becomes the freshly initialized one (`progress = 0`,
`lastTriggeredCheckpoint = -1`, `hasFinished = false`).  The grid is not
touched. -/
def handleRestart (s : AppState) : AppState :=
  { s with
      activeCheckpointIndex := none,
      cycleKey := s.cycleKey + 1,
      cyclist := initCyclist }

/-- Claim C7: the restart signal, issued in any state, resets the cyclist's
progress to 0, clears the finished flag and the last-triggered-checkpoint
guard, clears any active checkpoint pause, and leaves every tile of the grid
unchanged. -/
theorem restart_resets (s : AppState) :
    (handleRestart s).cyclist.progress = 0 ∧
    (handleRestart s).cyclist.hasFinished = false ∧
    (handleRestart s).cyclist.lastTriggeredCheckpoint = -1 ∧
    (handleRestart s).activeCheckpointIndex = none ∧
    (handleRestart s).grid = s.grid :=
  ⟨rfl, rfl, rfl, rfl, rfl⟩

/-- Witness for C7 at a concrete paused-and-finished state. -/
theorem restart_resets_witness :
    (handleRestart ⟨[], some 2, 5, ⟨3, 7, true⟩⟩).cyclist.progress = 0 ∧
    (handleRestart ⟨[], some 2, 5, ⟨3, 7, true⟩⟩).cyclist.hasFinished = false ∧
    (handleRestart ⟨[], some 2, 5, ⟨3, 7, true⟩⟩).cyclist.lastTriggeredCheckpoint = -1 ∧
    (handleRestart ⟨[], some 2, 5, ⟨3, 7, true⟩⟩).activeCheckpointIndex = none ∧
    (handleRestart ⟨[], some 2, 5, ⟨3, 7, true⟩⟩).grid
      = (⟨[], some 2, 5, ⟨3, 7, true⟩⟩ : AppState).grid :=
  restart_resets ⟨[], some 2, 5, ⟨3, 7, true⟩⟩
